import Mathlib

/-!
Verification of the repeated-files detector (`main.go`) against its
specification.  The Go program is embedded shallowly: every pure piece of
the pipeline becomes a Lean function on lists, Go `int64` arithmetic is
modelled as `Int` with an explicit two's-complement wrap where overflow
matters, and channel-based stages are modelled by the list of items they
would emit in arrival order.  Go maps are represented as association
lists carrying the (otherwise unspecified) iteration order; their keys
are distinct, which appears as a `Nodup` hypothesis where needed.
-/

namespace RepDetect

/-! ## Size parsing (`parseToBytes` and the `init` unit table) -/

/-- The valid unit suffixes, from the `validUnits` package variable. -/
def validUnits : List String := ["B", "KB", "MB", "GB", "TB", "PB", "EB"]

/-- The `units` map built by `init`: `units[unit] = 1 << (10*i)` (as `int64`,
which never overflows here since the largest exponent is 60). -/
def unitsList : List (String × Int) :=
  validUnits.enum.map (fun p => (p.2, (2 : Int) ^ (10 * p.1)))

/-- Lookup in the `units` map. -/
def unitFactor (u : String) : Option Int := unitsList.lookup u

/-- The `isNumber` closure inside `parseToBytes`: `num >= '0' && num <= '9'`
(Go compares runes by code point). -/
def isNumber (c : Char) : Bool :=
  decide (Char.toNat '0' ≤ c.toNat) && decide (c.toNat ≤ Char.toNat '9')

/-- The digit-collecting loop of `parseToBytes`: it appends runes to `number`
until the first non-digit, i.e. it takes the longest digit prefix. -/
def numberPart (cs : List Char) : List Char := cs.takeWhile isNumber

/-- Numeric value of a digit string (what `strconv.Atoi` parses). -/
def natOfDigits (ds : List Char) : Nat :=
  ds.foldl (fun acc c => 10 * acc + (c.toNat - Char.toNat '0')) 0

/-- Largest `int64` value, `2^63 - 1`. -/
def int64Max : Int := 2 ^ 63 - 1

/-- `strconv.Atoi` on an all-digit, non-empty string (the only way
`parseToBytes` calls it): success with the value if it fits in `int64`,
otherwise the out-of-range error. -/
def atoi (ds : List Char) : Except String Int :=
  if (natOfDigits ds : Int) ≤ int64Max then Except.ok (natOfDigits ds)
  else Except.error "value out of range"

/-- ASCII case folding of one character (`strings.ToUpper`, restricted to the
ASCII data this program compares against its ASCII unit table). -/
def toUpperChar (c : Char) : Char :=
  if Char.toNat 'a' ≤ c.toNat ∧ c.toNat ≤ Char.toNat 'z' then
    Char.ofNat (c.toNat - 32)
  else c

/-- `strings.ToUpper` on the rune list of a string. -/
def strToUpperL (cs : List Char) : List Char := cs.map toUpperChar

/-- Two's-complement reduction of a mathematical integer into `int64`: this is
what Go's `int64` multiplication produces on overflow. -/
def wrapInt64 (x : Int) : Int := (x + 2 ^ 63) % 2 ^ 64 - 2 ^ 63

/-- `parseToBytes` on the rune list of its argument: collect the digit prefix,
fail if it is empty, run `Atoi`, uppercase the remainder, look it up in the
unit table, and return the (wrapping) `int64` product `numberInt * units[unit]`. -/
def parseToBytesL (cs : List Char) : Except String Int :=
  let number := numberPart cs
  if number.length = 0 then
    Except.error "at least, first character should be a number"
  else
    match atoi number with
    | Except.error e => Except.error e
    | Except.ok numberInt =>
      let unit := String.mk (strToUpperL (cs.drop number.length))
      match unitFactor unit with
      | none => Except.error "is not a valid unit"
      | some f => Except.ok (wrapInt64 (numberInt * f))

/-- `parseToBytes`. -/
def parseToBytes (size : String) : Except String Int := parseToBytesL size.toList

/-! ## Data model (`fHashed`, `fToCompare`, `fRepeated`) -/

/-- `fHashed`: a hashed file record.  The `[md5.Size]byte` digest is modelled
as a byte list; `error` as `Option String`. -/
structure FHashed where
  err : Option String
  path : String
  directory : String
  hash : List UInt8
deriving DecidableEq

/-- `fToCompare`: the two file lists of one directory pair. -/
structure FToCompare where
  files1 : List FHashed
  files2 : List FHashed
deriving DecidableEq

/-- `fRepeated`: one matched pair of records with equal hashes. -/
structure FRepeated where
  f1 : FHashed
  f2 : FHashed
deriving DecidableEq

/-! ## Traversal filter (`getFilesRecursively` walk callback) -/

/-- Outcome of one call of the `filepath.Walk` callback in
`getFilesRecursively`. -/
inductive WalkAction where
  /-- the path is sent into the `paths` channel -/
  | emit : WalkAction
  /-- `return nil` without emitting (non-regular file or exclusion match) -/
  | skip : WalkAction
  /-- the size-window branch: `Fprintf(os.Stderr, ...)` then `return nil` -/
  | warnSkip : String → WalkAction
  /-- a non-nil error is returned, aborting the walk -/
  | fail : String → WalkAction
deriving DecidableEq

/-- The warning printed to `os.Stderr` for an out-of-window file. -/
def outOfBoundsMsg (path : String) (fileSize minSize maxSize : Int) : String :=
  path ++ " (" ++ toString fileSize ++ "B) is out of bounds (" ++
    toString minSize ++ "B - " ++ toString maxSize ++ "B). Will skip it.\n"

/-- One step of the walk callback of `getFilesRecursively`.  `err` is the
callback's error argument; `isRegular` stands for `info.Mode().IsRegular()`
and `matchesReg` for `reg != nil && reg.MatchString(path)` (the regexp engine
is external).  Emission through the channel and `done`-cancellation are not
part of the per-file decision modelled here. -/
def walkStep (err : Option String) (isRegular matchesReg : Bool)
    (path : String) (fileSize minSize maxSize : Int) : WalkAction :=
  match err with
  | some e => WalkAction.fail e
  | none =>
    if isRegular = false then WalkAction.skip
    else if matchesReg then WalkAction.skip
    else if fileSize < minSize ∨ fileSize > maxSize then
      WalkAction.warnSkip (outOfBoundsMsg path fileSize minSize maxSize)
    else WalkAction.emit

/-! ## The MD5 digest (`crypto/md5`, RFC 1321) -/

/-- The per-round left-rotation amounts of MD5. -/
def md5S : List Nat :=
  [7, 12, 17, 22, 7, 12, 17, 22, 7, 12, 17, 22, 7, 12, 17, 22,
   5, 9, 14, 20, 5, 9, 14, 20, 5, 9, 14, 20, 5, 9, 14, 20,
   4, 11, 16, 23, 4, 11, 16, 23, 4, 11, 16, 23, 4, 11, 16, 23,
   6, 10, 15, 21, 6, 10, 15, 21, 6, 10, 15, 21, 6, 10, 15, 21]

/-- The per-round additive constants of MD5. -/
def md5K : List Nat :=
  [0xd76aa478, 0xe8c7b756, 0x242070db, 0xc1bdceee,
   0xf57c0faf, 0x4787c62a, 0xa8304613, 0xfd469501,
   0x698098d8, 0x8b44f7af, 0xffff5bb1, 0x895cd7be,
   0x6b901122, 0xfd987193, 0xa679438e, 0x49b40821,
   0xf61e2562, 0xc040b340, 0x265e5a51, 0xe9b6c7aa,
   0xd62f105d, 0x02441453, 0xd8a1e681, 0xe7d3fbc8,
   0x21e1cde6, 0xc33707d6, 0xf4d50d87, 0x455a14ed,
   0xa9e3e905, 0xfcefa3f8, 0x676f02d9, 0x8d2a4c8a,
   0xfffa3942, 0x8771f681, 0x6d9d6122, 0xfde5380c,
   0xa4beea44, 0x4bdecfa9, 0xf6bb4b60, 0xbebfbc70,
   0x289b7ec6, 0xeaa127fa, 0xd4ef3085, 0x04881d05,
   0xd9d4d039, 0xe6db99e5, 0x1fa27cf8, 0xc4ac5665,
   0xf4292244, 0x432aff97, 0xab9423a7, 0xfc93a039,
   0x655b59c3, 0x8f0ccc92, 0xffeff47d, 0x85845dd1,
   0x6fa87e4f, 0xfe2ce6e0, 0xa3014314, 0x4e0811a1,
   0xf7537e82, 0xbd3af235, 0x2ad7d2bb, 0xeb86d391]

/-- The 8-byte little-endian encoding of the bit length. -/
def lenLE8 (n : Nat) : List Nat :=
  (List.range 8).map (fun i => n / 2 ^ (8 * i) % 256)

/-- MD5 padding: a `0x80` byte, zeros to 56 mod 64, then the bit length. -/
def md5Pad (msg : List Nat) : List Nat :=
  msg ++ [0x80] ++
    List.replicate ((56 + 64 - (msg.length + 1) % 64) % 64) 0 ++
    lenLE8 (msg.length * 8)

/-- The sixteen little-endian 32-bit words of one 64-byte chunk. -/
def wordsOf (chunk : List Nat) : List Nat :=
  (List.range 16).map (fun i =>
    chunk.getD (4 * i) 0 + 256 * chunk.getD (4 * i + 1) 0 +
      65536 * chunk.getD (4 * i + 2) 0 + 16777216 * chunk.getD (4 * i + 3) 0)

/-- One of the 64 MD5 rounds; 32-bit words are `Nat` reduced mod `2^32`, the
left rotation by `r` is `x*2^r + x/2^(32-r)` mod `2^32`. -/
def md5Step (m : List Nat) (st : Nat × Nat × Nat × Nat) (i : Nat) :
    Nat × Nat × Nat × Nat :=
  let a := st.1
  let b := st.2.1
  let c := st.2.2.1
  let d := st.2.2.2
  let f :=
    if i < 16 then (b &&& c) ||| ((b ^^^ 0xffffffff) &&& d)
    else if i < 32 then (d &&& b) ||| ((d ^^^ 0xffffffff) &&& c)
    else if i < 48 then b ^^^ c ^^^ d
    else c ^^^ (b ||| (d ^^^ 0xffffffff))
  let g :=
    if i < 16 then i
    else if i < 32 then (5 * i + 1) % 16
    else if i < 48 then (3 * i + 5) % 16
    else 7 * i % 16
  let tmp := (a + f + md5K.getD i 0 + m.getD g 0) % 4294967296
  let rot := md5S.getD i 0
  let nb := (b + (tmp * 2 ^ rot + tmp / 2 ^ (32 - rot)) % 4294967296) % 4294967296
  (d, nb, b, c)

/-- Process one 64-byte chunk and add the round result into the state. -/
def md5Chunk (st : Nat × Nat × Nat × Nat) (chunk : List Nat) :
    Nat × Nat × Nat × Nat :=
  let m := wordsOf chunk
  let r := (List.range 64).foldl (md5Step m) st
  ((st.1 + r.1) % 4294967296, (st.2.1 + r.2.1) % 4294967296,
   (st.2.2.1 + r.2.2.1) % 4294967296, (st.2.2.2 + r.2.2.2) % 4294967296)

/-- Process the given number of 64-byte chunks left to right. -/
def md5ProcessN (st : Nat × Nat × Nat × Nat) (bytes : List Nat) :
    Nat → Nat × Nat × Nat × Nat
  | 0 => st
  | n + 1 => md5ProcessN (md5Chunk st (bytes.take 64)) (bytes.drop 64) n

/-- The four little-endian output bytes of one state word. -/
def word4LE (x : Nat) : List Nat :=
  [x % 256, x / 256 % 256, x / 65536 % 256, x / 16777216 % 256]

/-- `md5.Sum`: the 16-byte MD5 digest of a byte string (checked against the
RFC 1321 test vectors, e.g. the digest of the empty string is
`d41d8cd98f00b204e9800998ecf8427e`). -/
def md5Sum (data : List UInt8) : List UInt8 :=
  let msg := data.map (fun b => b.toNat)
  let padded := md5Pad msg
  let st := md5ProcessN (0x67452301, 0xefcdab89, 0x98badcfe, 0x10325476)
    padded (padded.length / 64)
  (word4LE st.1 ++ word4LE st.2.1 ++ word4LE st.2.2.1 ++ word4LE st.2.2.2).map
    (fun n => UInt8.ofNat n)

/-! ## Hash workers (`md5All`) -/

/-- The record built by a hash worker for one path: `data, err :=
os.ReadFile(path)` followed by `fHashed{err, filepath.Dir(path), path,
md5.Sum(data)}`.  `os.ReadFile` hands back both the bytes it read and an
optional error — on a mid-read failure the partially read bytes accompany
the error, and only an open failure returns no data — so its result is a
pair, and the digest is taken of whatever data came back.  The
parent-directory function `fpDir` (`filepath.Dir`) is external and passed as
a parameter. -/
def md5One (fpDir : String → String) (path : String)
    (r : List UInt8 × Option String) : FHashed :=
  { err := r.2, path := path, directory := fpDir path, hash := md5Sum r.1 }

/-- `md5All` as the merged stream of records, one per (path, read result)
job; across workers the merge order is arbitrary, so a job list already fixes
one arrival order. -/
def md5All (fpDir : String → String)
    (jobs : List (String × (List UInt8 × Option String))) : List FHashed :=
  jobs.map (fun j => md5One fpDir j.1 j.2)

/-! ## Directory grouper (`groupByDirectory`) -/

/-- `sameDir[fh.directory] = append(sameDir[fh.directory], fh)` on the
association-list representation of the Go map: append to the existing entry,
or add a new key. -/
def appendToDir (m : List (String × List FHashed)) (dir : String)
    (fh : FHashed) : List (String × List FHashed) :=
  match m with
  | [] => [(dir, [fh])]
  | (k, v) :: rest =>
    if k = dir then (k, v ++ [fh]) :: rest
    else (k, v) :: appendToDir rest dir fh

/-- The fold of `groupByDirectory` with the map built so far. -/
def groupByDirectoryAux (acc : List (String × List FHashed)) :
    List FHashed → List (String × List FHashed) × Option String
  | [] => (acc, none)
  | fh :: rest =>
    match fh.err with
    | some e => (acc, some e)
    | none => groupByDirectoryAux (appendToDir acc fh.directory fh) rest

/-- `groupByDirectory`: fold the hash stream into the directory map, stopping
with `(sameDir, fh.err)` at the first record whose `err` is set. -/
def groupByDirectory (hashes : List FHashed) :
    List (String × List FHashed) × Option String :=
  groupByDirectoryAux [] hashes

/-! ## Pair enumerator (`getDirectoriesToCompare`) -/

/-- The key-extraction loop: `for dir := range filesByDirectory`, in the
map's iteration order (the order carried by the association list). -/
def extractDirectories (m : List (String × List FHashed)) : List String :=
  m.map Prod.fst

/-- Go map indexing `filesByDirectory[dir]` (zero value `nil` if absent). -/
def lookupDir (m : List (String × List FHashed)) (d : String) : List FHashed :=
  (m.lookup d).getD []

/-- The double loop `for i, dir1 := range directories { for _, dir2 := range
directories[i+1:] ... }`, at the level of keys. -/
def pairCombos : List String → List (String × String)
  | [] => []
  | d :: ds => ds.map (fun d2 => (d, d2)) ++ pairCombos ds

/-- `getDirectoriesToCompare`: emit `fToCompare{filesByDirectory[dir1],
filesByDirectory[dir2]}` for every `i < j` pair of the extracted key
sequence. -/
def getDirectoriesToCompare (m : List (String × List FHashed)) :
    List FToCompare :=
  (pairCombos (extractDirectories m)).map
    (fun p => FToCompare.mk (lookupDir m p.1) (lookupDir m p.2))

/-! ## Comparison workers (`countRepeatedFiles`) -/

/-- The per-pair nested loop of a comparison worker: collect `fRepeated{fh1,
fh2}` for every cross pair with equal hashes. -/
def countRepeatedOne (c : FToCompare) : List FRepeated :=
  (c.files1.map (fun fh1 =>
    (c.files2.filter (fun fh2 => fh1.hash == fh2.hash)).map
      (fun fh2 => FRepeated.mk fh1 fh2))).flatten

/-- `countRepeatedFiles`: one `[]fRepeated` row per compared pair (rows are
merged from workers in arbitrary order; a given arrival order is a list). -/
def countRepeatedFiles (pairs : List FToCompare) : List (List FRepeated) :=
  pairs.map countRepeatedOne

/-! ## Report formatter (`printRepeatedFiles`) -/

/-- `filepath.Base` (Unix): empty path gives ".", trailing slashes are
dropped, then the last path element is taken; an all-slash path gives "/". -/
def goBase (path : String) : String :=
  if path.isEmpty then "."
  else
    let r := path.toList.reverse.dropWhile (fun c => c = '/')
    if r.isEmpty then "/"
    else String.mk ((r.takeWhile (fun c => c ≠ '/')).reverse)

/-- The `biggestFilenameSize` closure: fold the matched base-name lengths
into the two accumulators (seeded by the caller).  Go `len` counts bytes;
the model counts characters, which coincide on ASCII data. -/
def biggestFilenameSize (bigestSize1 bigestSize2 : Nat) :
    List FRepeated → Nat × Nat
  | [] => (bigestSize1, bigestSize2)
  | fr :: rest =>
    biggestFilenameSize (max bigestSize1 (goBase fr.f1.path).length)
      (max bigestSize2 (goBase fr.f2.path).length) rest

/-- The `printDividingLine` closure: `+` then `size1+size2+4` dashes then `+`. -/
def dividingLine (size1 size2 : Nat) : String :=
  "+" ++ String.mk (List.replicate (size1 + size2 + 4) '-') ++ "+"

/-- Right-justified padding of `%*s` (no truncation when too long). -/
def padLeft (w : Nat) (s : String) : String :=
  String.mk (List.replicate (w - s.length) ' ') ++ s

/-- Left-justified padding of `%-*s`. -/
def padRight (w : Nat) (s : String) : String :=
  s ++ String.mk (List.replicate (w - s.length) ' ')

/-- The `printTwoFiles` closure: `|%*s == %-*s|`. -/
def twoFilesLine (size1 size2 : Nat) (path1 path2 : String) : String :=
  "|" ++ padLeft size1 path1 ++ " == " ++ padRight size2 path2 ++ "|"

/-- The block printed for one retained row: header from
`repeatedArray[0]` (an out-of-bounds access, hence `none`, on an empty row),
widths seeded with the two directory-path lengths, then the dividers, the
directory header, the matched base-name lines, and the closing divider. -/
def renderBlock : List FRepeated → Option (List String)
  | [] => none
  | r0 :: rest =>
    let dir1 := r0.f1.directory
    let dir2 := r0.f2.directory
    let ws := biggestFilenameSize dir1.length dir2.length (r0 :: rest)
    some ([dividingLine ws.1 ws.2,
           twoFilesLine ws.1 ws.2 dir1 dir2,
           dividingLine ws.1 ws.2] ++
          (r0 :: rest).map (fun r =>
            twoFilesLine ws.1 ws.2 (goBase r.f1.path) (goBase r.f2.path)) ++
          [dividingLine ws.1 ws.2])

/-- `printRepeatedFiles`: skip rows with fewer than `n` matches, render every
other row; `none` models the `repeatedArray[0]` panic on a retained empty
row.  `n` is a Go `int`, hence `Int`. -/
def printRepeatedFiles : List (List FRepeated) → Int → Option (List String)
  | [], _ => some []
  | arr :: rest, n =>
    if (arr.length : Int) < n then printRepeatedFiles rest n
    else
      match renderBlock arr with
      | none => none
      | some lines => (printRepeatedFiles rest n).map (fun ls => lines ++ ls)

/-! ## Helper lemmas: size parsing -/

/-- The unit table evaluates to its seven literal entries. -/
lemma unitsList_eq : unitsList =
    [("B", 1), ("KB", 1024), ("MB", 1048576), ("GB", 1073741824),
     ("TB", 1099511627776), ("PB", 1125899906842624),
     ("EB", 1152921504606846976)] := by decide

/-- A unit is found in the table exactly when it is one of the valid units. -/
lemma unitFactor_isSome_iff (u : String) :
    (unitFactor u).isSome = true ↔ u ∈ validUnits := by
  rw [unitFactor, unitsList_eq]
  simp only [List.lookup, validUnits, List.mem_cons, List.not_mem_nil, or_false]
  repeat' split
  all_goals simp_all [beq_iff_eq]

/-- `takeWhile` jumps over a block that satisfies the predicate. -/
lemma takeWhile_all_append (p : Char → Bool) (num rest : List Char)
    (h : ∀ c ∈ num, p c = true) :
    (num ++ rest).takeWhile p = num ++ rest.takeWhile p := by
  induction num with
  | nil => simp
  | cons c cs ih =>
    have hc : p c = true := h c (List.mem_cons_self c cs)
    simp only [List.cons_append, List.takeWhile_cons, hc, if_true]
    rw [ih (fun d hd => h d (List.mem_cons_of_mem c hd))]

/-- The digit prefix of a digit block followed by anything. -/
lemma numberPart_append (num rest : List Char)
    (h : ∀ c ∈ num, isNumber c = true) :
    numberPart (num ++ rest) = num ++ numberPart rest :=
  takeWhile_all_append isNumber num rest h

/-- The wrap is the identity inside the `int64` range. -/
lemma wrapInt64_of_le (x : Int) (h0 : 0 ≤ x) (h1 : x ≤ int64Max) :
    wrapInt64 x = x := by
  simp only [wrapInt64, int64Max] at *
  omega

/-- The wrapped value always lies in the `int64` range. -/
lemma wrapInt64_bounds (x : Int) :
    -(2 ^ 63) ≤ wrapInt64 x ∧ wrapInt64 x ≤ int64Max := by
  simp only [wrapInt64, int64Max]
  omega

/-- Wrapping preserves the value modulo `2^64`. -/
lemma wrapInt64_congruent (x : Int) : (x - wrapInt64 x) % 2 ^ 64 = 0 := by
  simp only [wrapInt64]
  omega

/-- Evaluation of `parseToBytesL` on a digit block followed by a unit block:
the number is parsed, the remainder is case-folded and looked up, and the
wrapped `int64` product is returned. -/
lemma parseToBytesL_append (num u : List Char) (f : Int)
    (hdig : ∀ c ∈ num, isNumber c = true) (hne : num ≠ [])
    (hle : (natOfDigits num : Int) ≤ int64Max)
    (hu : u.takeWhile isNumber = [])
    (hf : unitFactor (String.mk (strToUpperL u)) = some f) :
    parseToBytesL (num ++ u) = Except.ok (wrapInt64 (natOfDigits num * f)) := by
  have hnp : numberPart (num ++ u) = num := by
    rw [numberPart_append num u hdig]
    rw [numberPart, hu, List.append_nil]
  have hlen : (numberPart (num ++ u)).length = num.length := by rw [hnp]
  have hlen0 : ¬(numberPart (num ++ u)).length = 0 := by
    rw [hnp]
    simpa [List.length_eq_zero] using hne
  simp only [parseToBytesL, hnp, atoi, hle, if_true, List.drop_left]
  rw [if_neg (by simpa [List.length_eq_zero] using hne), hf]

/-- Success characterization of the parser: a result is `ok` exactly when the
digit prefix is non-empty, its value fits `int64` (`Atoi` succeeds), and the
case-folded remainder is a valid unit. -/
lemma parseToBytesL_isOk_iff (cs : List Char) :
    (parseToBytesL cs).isOk = true ↔
    (numberPart cs ≠ [] ∧ (natOfDigits (numberPart cs) : Int) ≤ int64Max ∧
     String.mk (strToUpperL (cs.drop (numberPart cs).length)) ∈ validUnits) := by
  rw [← unitFactor_isSome_iff]
  by_cases h0 : (numberPart cs).length = 0
  · have he : numberPart cs = [] := List.length_eq_zero.mp h0
    simp [parseToBytesL, h0, Except.isOk, Except.toBool, he]
  · have hne : numberPart cs ≠ [] := by simpa [List.length_eq_zero] using h0
    by_cases h1 : (natOfDigits (numberPart cs) : Int) ≤ int64Max
    · cases hf : unitFactor (String.mk (strToUpperL (cs.drop (numberPart cs).length))) with
      | none => simp [parseToBytesL, h0, atoi, h1, hf, Except.isOk, Except.toBool, hne]
      | some f => simp [parseToBytesL, h0, atoi, h1, hf, Except.isOk, Except.toBool, hne]
    · simp [parseToBytesL, h0, atoi, h1, Except.isOk, Except.toBool, hne]

/-- Each valid unit starts with a non-digit and carries factor `1024^k` at
index `k` of the table. -/
lemma validUnits_factor (k : Nat) (u : String) (hk : validUnits[k]? = some u) :
    u.toList.takeWhile isNumber = [] ∧
    unitFactor (String.mk (strToUpperL u.toList)) = some ((1024 : Int) ^ k) := by
  have h7 : k < 7 := by
    by_contra h
    rw [List.getElem?_eq_none (by simpa [validUnits] using le_of_not_lt h)] at hk
    exact Option.noConfusion hk
  interval_cases k <;>
    (simp only [validUnits, List.getElem?_cons_zero, List.getElem?_cons_succ,
       Option.some_inj] at hk) <;>
    subst hk <;> exact ⟨by decide, by decide⟩

/-- Digits are left unchanged by case folding (they are not lowercase
letters). -/
lemma toUpperChar_of_isNumber (c : Char) (h : isNumber c = true) :
    toUpperChar c = c := by
  have h48 : Char.toNat '0' = 48 := rfl
  have h57 : Char.toNat '9' = 57 := rfl
  have h97 : Char.toNat 'a' = 97 := rfl
  have h122 : Char.toNat 'z' = 122 := rfl
  simp only [isNumber, Bool.and_eq_true, decide_eq_true_eq, h48, h57] at h
  rw [toUpperChar, if_neg]
  rw [h97, h122]
  omega

/-- A rune list whose case folding starts with a non-digit itself starts
with a non-digit, so its digit prefix is empty. -/
lemma takeWhile_isNumber_nil_of_upper (u : List Char) (d : Char)
    (rest : List Char) (h : strToUpperL u = d :: rest)
    (hd : isNumber d = false) : u.takeWhile isNumber = [] := by
  cases u with
  | nil => simp [strToUpperL] at h
  | cons c cs =>
    simp only [strToUpperL, List.map_cons, List.cons.injEq] at h
    rw [List.takeWhile_cons]
    by_cases hc : isNumber c = true
    · exfalso
      rw [toUpperChar_of_isNumber c hc] at h
      rw [h.1] at hc
      rw [hd] at hc
      exact absurd hc (by decide)
    · simp [hc]

/-- Case-insensitive version of the unit-table fact: any string whose case
folding is the unit of index `k` starts with a non-digit and looks up to the
factor `1024^k`. -/
lemma validUnits_factor_ci (k : Nat) (u : String)
    (hk : validUnits[k]? = some (String.mk (strToUpperL u.toList))) :
    u.toList.takeWhile isNumber = [] ∧
    unitFactor (String.mk (strToUpperL u.toList)) = some ((1024 : Int) ^ k) := by
  have h7 : k < 7 := by
    by_contra h
    rw [List.getElem?_eq_none (by simpa [validUnits] using le_of_not_lt h)] at hk
    exact Option.noConfusion hk
  have hv : validUnits.getD k "" = String.mk (strToUpperL u.toList) := by
    rw [List.getD_eq_getElem?_getD, hk]
    rfl
  have hlist : strToUpperL u.toList = (validUnits.getD k "").toList := by
    rw [hv]
    rfl
  interval_cases k <;>
    exact ⟨takeWhile_isNumber_nil_of_upper u.toList _ _ hlist (by decide),
      by rw [hlist]; decide⟩

/-- C5 (amended).  A string of decimal digits whose value fits `int64`,
followed by any suffix whose case folding is the unit of index `k` (so the
unit is matched case-insensitively), parses to the two's-complement
reduction of `number * 1024^k`, which is the exact product whenever that
product fits `int64`; and parsing errs exactly when the string does not
start with a digit, the digit prefix overflows `int64`, or the case-folded
remainder is not a recognized unit. -/
theorem parseToBytes_value_and_error_characterization :
    (∀ (num : List Char) (u : String) (k : Nat) (s : String),
      (∀ c ∈ num, isNumber c = true) → num ≠ [] →
      (natOfDigits num : Int) ≤ int64Max →
      validUnits[k]? = some (String.mk (strToUpperL u.toList)) →
      s.toList = num ++ u.toList →
      parseToBytes s =
        Except.ok (wrapInt64 ((natOfDigits num : Int) * 1024 ^ k)) ∧
      ((natOfDigits num : Int) * 1024 ^ k ≤ int64Max →
        wrapInt64 ((natOfDigits num : Int) * 1024 ^ k) =
          (natOfDigits num : Int) * 1024 ^ k)) ∧
    (∀ s : String, (parseToBytes s).isOk = true ↔
      (numberPart s.toList ≠ [] ∧
       (natOfDigits (numberPart s.toList) : Int) ≤ int64Max ∧
       String.mk (strToUpperL (s.toList.drop (numberPart s.toList).length)) ∈
         validUnits)) := by
  constructor
  · intro num u k s hdig hne hle hk hs
    obtain ⟨htw, hf⟩ := validUnits_factor_ci k u hk
    constructor
    · rw [parseToBytes, hs, parseToBytesL_append num u.toList _ hdig hne hle htw hf]
    · intro hfit
      exact wrapInt64_of_le _
        (mul_nonneg (Int.natCast_nonneg _) (pow_nonneg (by norm_num) _)) hfit
  · intro s
    rw [parseToBytes]
    exact parseToBytesL_isOk_iff s.toList

/-- Witness for C5 at the concrete lowercase-unit input "10kb". -/
theorem parseToBytes_value_witness : parseToBytes "10kb" = Except.ok 10240 := by
  have h := parseToBytes_value_and_error_characterization.1
    [Char.ofNat 49, Char.ofNat 48] "kb" 1 "10kb"
    (by decide) (by decide) (by decide) (by decide) (by decide)
  exact h.1.trans (congrArg Except.ok (by decide))

/-- C5 counterexample.  "9EB" parses with no error to the wrapped value
`-8070450532247928832`, which is not `9 * 1024^6`; and a digit prefix beyond
`int64` makes the parser err even though the string starts with a digit and
ends in a valid unit. -/
theorem parseToBytes_claim_counterexample :
    parseToBytes "9EB" = Except.ok (-8070450532247928832) ∧
    (-8070450532247928832 : Int) ≠ (9 : Int) * 1024 ^ 6 ∧
    (parseToBytes "99999999999999999999B").isOk = false :=
  ⟨by rfl, by decide, by rfl⟩

/-- C10.  Whenever the parser reaches its final multiplication (digit prefix
accepted by `Atoi`, valid unit) and the mathematical product exceeds
`2^63 - 1`, the result is the product reduced modulo `2^64` into the signed
`int64` range, returned with no error. -/
theorem parseToBytes_overflow_wraps :
    ∀ (num : List Char) (u : String) (k : Nat) (s : String),
      (∀ c ∈ num, isNumber c = true) → num ≠ [] →
      (natOfDigits num : Int) ≤ int64Max →
      validUnits[k]? = some u → s.toList = num ++ u.toList →
      int64Max < (natOfDigits num : Int) * 1024 ^ k →
      parseToBytes s =
        Except.ok (wrapInt64 ((natOfDigits num : Int) * 1024 ^ k)) ∧
      wrapInt64 ((natOfDigits num : Int) * 1024 ^ k) ≠
        (natOfDigits num : Int) * 1024 ^ k ∧
      ((natOfDigits num : Int) * 1024 ^ k -
        wrapInt64 ((natOfDigits num : Int) * 1024 ^ k)) % 2 ^ 64 = 0 ∧
      -(2 ^ 63) ≤ wrapInt64 ((natOfDigits num : Int) * 1024 ^ k) := by
  intro num u k s hdig hne hle hk hs hbig
  obtain ⟨htw, hf⟩ := validUnits_factor k u hk
  refine ⟨?_, ?_, wrapInt64_congruent _, (wrapInt64_bounds _).1⟩
  · rw [parseToBytes, hs, parseToBytesL_append num u.toList _ hdig hne hle htw hf]
  · intro h
    exact absurd ((wrapInt64_bounds ((natOfDigits num : Int) * 1024 ^ k)).2)
      (by rw [h]; exact not_le_of_lt hbig)

/-- Witness for C10 at the concrete input "9EB": a negative wrapped value with
no error. -/
theorem parseToBytes_overflow_witness :
    parseToBytes "9EB" = Except.ok (-8070450532247928832) ∧
    (-8070450532247928832 : Int) < 0 := by
  have h := parseToBytes_overflow_wraps [Char.ofNat 57] "EB" 6 "9EB"
    (by decide) (by decide) (by decide) (by decide) (by decide) (by decide)
  exact ⟨h.1.trans (congrArg Except.ok (by decide)), by decide⟩

/-! ## Helper lemmas: pair enumeration -/

/-- The double loop emits one pair per 2-element subset slot:
`choose (length) 2` pairs. -/
lemma pairCombos_length (l : List String) :
    (pairCombos l).length = l.length.choose 2 := by
  induction l with
  | nil => simp [pairCombos]
  | cons d ds ih =>
    simp only [pairCombos, List.length_append, List.length_map, ih,
      List.length_cons]
    rw [Nat.choose_succ_succ ds.length 1, Nat.choose_one_right, Nat.add_comm]

/-- Both components of an emitted pair are keys of the sequence. -/
lemma pairCombos_mem (l : List String) (p : String × String)
    (hp : p ∈ pairCombos l) : p.1 ∈ l ∧ p.2 ∈ l := by
  induction l with
  | nil => simp [pairCombos] at hp
  | cons d ds ih =>
    simp only [pairCombos, List.mem_append, List.mem_map] at hp
    rcases hp with ⟨d2, hd2, rfl⟩ | h
    · exact ⟨List.mem_cons_self _ _, List.mem_cons_of_mem _ hd2⟩
    · obtain ⟨h1, h2⟩ := ih h
      exact ⟨List.mem_cons_of_mem _ h1, List.mem_cons_of_mem _ h2⟩

/-- With distinct keys, no emitted pair compares a key with itself. -/
lemma pairCombos_ne (l : List String) (hnd : l.Nodup) (p : String × String)
    (hp : p ∈ pairCombos l) : p.1 ≠ p.2 := by
  induction l with
  | nil => simp [pairCombos] at hp
  | cons d ds ih =>
    simp only [pairCombos, List.mem_append, List.mem_map] at hp
    rcases hp with ⟨d2, hd2, rfl⟩ | h
    · have hne : d ≠ d2 := fun h => (List.nodup_cons.mp hnd).1 (h ▸ hd2)
      exact hne
    · exact ih (List.nodup_cons.mp hnd).2 h

/-- Occurrences of a fixed pair in the first-row block of the double loop. -/
lemma count_pair_map (d a b : String) (ds : List String) :
    (ds.map (fun d2 => (d, d2))).count (a, b) =
      if a = d then ds.count b else 0 := by
  induction ds with
  | nil => simp
  | cons x xs ih =>
    simp only [List.map_cons, List.count_cons, ih, Prod.mk.injEq]
    by_cases hax : a = d
    · subst hax
      by_cases hbx : x = b <;> simp [hbx, beq_iff_eq]
    · have hda : ¬d = a := fun h => hax h.symm
      by_cases hbx : x = b <;> simp [hax, hbx, hda, beq_iff_eq]

/-- With distinct keys, every unordered pair of two distinct present keys is
emitted exactly once (counting both orientations). -/
lemma count_pairCombos (l : List String) (hnd : l.Nodup) (a b : String)
    (hab : a ≠ b) (ha : a ∈ l) (hb : b ∈ l) :
    (pairCombos l).count (a, b) + (pairCombos l).count (b, a) = 1 := by
  induction l with
  | nil => simp at ha
  | cons d ds ih =>
    obtain ⟨hd, hnds⟩ := List.nodup_cons.mp hnd
    simp only [pairCombos, List.count_append, count_pair_map]
    rcases List.mem_cons.mp ha with rfl | ha2
    · have hbds : b ∈ ds := by
        rcases List.mem_cons.mp hb with rfl | h
        · exact absurd rfl hab
        · exact h
      have hcb : ds.count b = 1 := List.count_eq_one_of_mem hnds hbds
      have hba : ¬b = a := fun h => hab h.symm
      have hzero1 : (pairCombos ds).count (a, b) = 0 := by
        rw [List.count_eq_zero]
        intro h
        exact hd (pairCombos_mem ds (a, b) h).1
      have hzero2 : (pairCombos ds).count (b, a) = 0 := by
        rw [List.count_eq_zero]
        intro h
        exact hd (pairCombos_mem ds (b, a) h).2
      simp [hcb, hba, hzero1, hzero2]
    · rcases List.mem_cons.mp hb with rfl | hb2
      · have hads : a ∈ ds := ha2
        have hca : ds.count a = 1 := List.count_eq_one_of_mem hnds hads
        have hab2 : ¬a = b := hab
        have hzero1 : (pairCombos ds).count (a, b) = 0 := by
          rw [List.count_eq_zero]
          intro h
          exact hd (pairCombos_mem ds (a, b) h).2
        have hzero2 : (pairCombos ds).count (b, a) = 0 := by
          rw [List.count_eq_zero]
          intro h
          exact hd (pairCombos_mem ds (b, a) h).1
        simp [hca, hab2, hzero1, hzero2]
      · have hda : ¬a = d := fun h => hd (h ▸ ha2)
        have hdb : ¬b = d := fun h => hd (h ▸ hb2)
        simpa [hda, hdb] using ih hnds ha2 hb2

/-- C1.  With distinct directory keys (as Go map keys are), the pair
enumerator emits exactly `D*(D-1)/2` pairs; no key is paired with itself and
every unordered pair of two distinct present keys is enumerated exactly
once. -/
theorem getDirectoriesToCompare_complete (m : List (String × List FHashed))
    (hnd : (extractDirectories m).Nodup) :
    (getDirectoriesToCompare m).length = m.length * (m.length - 1) / 2 ∧
    (∀ p ∈ pairCombos (extractDirectories m), p.1 ≠ p.2) ∧
    (∀ a b : String, a ≠ b → a ∈ extractDirectories m →
      b ∈ extractDirectories m →
      (pairCombos (extractDirectories m)).count (a, b) +
        (pairCombos (extractDirectories m)).count (b, a) = 1) := by
  refine ⟨?_, fun p hp => pairCombos_ne _ hnd p hp,
    fun a b hab ha hb => count_pairCombos _ hnd a b hab ha hb⟩
  rw [getDirectoriesToCompare, List.length_map, pairCombos_length,
    Nat.choose_two_right]
  simp [extractDirectories]

/-- Witness for C1 on a three-directory map. -/
theorem getDirectoriesToCompare_complete_witness :
    (getDirectoriesToCompare [("a", []), ("b", []), ("c", [])]).length = 3 := by
  have h := getDirectoriesToCompare_complete
    [("a", []), ("b", []), ("c", [])] (by decide)
  exact h.1.trans (by decide)

/-- Mapping the `getD` values of all positions of a list is mapping the
list. -/
lemma map_getD_range {α β : Type} (dflt : α) (f : α → β) (ds : List α) :
    (List.range ds.length).map (fun j => f (ds.getD j dflt)) = ds.map f := by
  induction ds with
  | nil => simp
  | cons x xs ih =>
    rw [List.length_cons, List.range_succ_eq_map, List.map_cons, List.map_map]
    simp only [Function.comp_def, Nat.succ_eq_add_one, List.getD_cons_zero,
      List.getD_cons_succ]
    rw [List.map_cons, ih]

/-- The double loop is exactly the index enumeration `i` from `0` to `D-1`,
`j` from `i+1` to `D-1`, over the materialized key sequence. -/
lemma pairCombos_eq_ranges (l : List String) :
    pairCombos l = (List.range l.length).flatMap (fun i =>
      ((List.range l.length).drop (i + 1)).map (fun j =>
        (l.getD i "", l.getD j ""))) := by
  induction l with
  | nil => simp [pairCombos]
  | cons d ds ih =>
    rw [pairCombos, List.length_cons, List.range_succ_eq_map, List.flatMap_cons]
    congr 1
    · rw [show (0 : Nat) + 1 = 1 from rfl, List.drop_one, List.tail_cons,
        List.map_map]
      simp only [Function.comp_def, Nat.succ_eq_add_one, List.getD_cons_zero,
        List.getD_cons_succ]
      exact (map_getD_range "" (fun d2 => (d, d2)) ds).symm
    · rw [List.flatMap_map, ih]
      refine congrArg _ (funext fun i => ?_)
      rw [Nat.succ_eq_add_one, show i + 1 + 1 = i + 2 from rfl,
        List.drop_succ_cons, ← List.map_drop, List.map_map]
      simp only [Function.comp_def, Nat.succ_eq_add_one, List.getD_cons_succ]

/-- Lexicographic comparison of two rune lists (spec-side helper; on the
ASCII data at hand it agrees with Go's byte-wise string order). -/
def lexLe (a b : List Char) : Bool :=
  match a, b with
  | [], _ => true
  | _ :: _, [] => false
  | c :: cs, d :: ds =>
    if c.toNat < d.toNat then true
    else if d.toNat < c.toNat then false
    else lexLe cs ds

/-- Insertion into a lexicographically sorted string list (spec-side). -/
def insertSorted (a : String) : List String → List String
  | [] => [a]
  | b :: l => if lexLe a.toList b.toList then a :: b :: l else b :: insertSorted a l

/-- Lexicographic insertion sort of a string list (spec-side). -/
def sortStrings : List String → List String
  | [] => []
  | a :: l => insertSorted a (sortStrings l)

/-- Second definition following the claim's words for C2: materialize the
directory keys into a lexicographically sorted sequence, then run the
`i < j` double loop over that sorted sequence. -/
def getDirectoriesToCompareSpec (m : List (String × List FHashed)) :
    List FToCompare :=
  (pairCombos (sortStrings (extractDirectories m))).map
    (fun p => FToCompare.mk (lookupDir m p.1) (lookupDir m p.2))

/-- A record of directory "a" used in concrete pair-enumeration inputs. -/
def faRec : FHashed := { err := none, path := "a/x", directory := "a", hash := [1] }

/-- A record of directory "b" used in concrete pair-enumeration inputs. -/
def fbRec : FHashed := { err := none, path := "b/y", directory := "b", hash := [2] }

/-- C2 counterexample.  On the map whose iteration order lists "b" before
"a", the enumerator pairs the keys in that unsorted order, differing from the
claim's sorted enumeration; two association lists representing the same map
in different iteration orders also yield different emissions. -/
theorem getDirectoriesToCompare_unsorted_counterexample :
    getDirectoriesToCompare [("b", [fbRec]), ("a", [faRec])] ≠
      getDirectoriesToCompareSpec [("b", [fbRec]), ("a", [faRec])] ∧
    getDirectoriesToCompare [("b", [fbRec]), ("a", [faRec])] ≠
      getDirectoriesToCompare [("a", [faRec]), ("b", [fbRec])] := by
  constructor <;> decide

/-- C2 (amended).  The enumerator materializes the keys in the map's
iteration order, without sorting, and then emits `(keys[i], keys[j])` for `i`
from `0` to `D-1` and `j` from `i+1` to `D-1`: the emission order is
determined by the materialized (unsorted) key sequence. -/
theorem getDirectoriesToCompare_index_order (m : List (String × List FHashed)) :
    getDirectoriesToCompare m =
      (List.range (extractDirectories m).length).flatMap (fun i =>
        ((List.range (extractDirectories m).length).drop (i + 1)).map (fun j =>
          FToCompare.mk (lookupDir m ((extractDirectories m).getD i ""))
            (lookupDir m ((extractDirectories m).getD j "")))) := by
  rw [getDirectoriesToCompare, pairCombos_eq_ranges, List.map_flatMap]
  refine congrArg _ (funext fun i => ?_)
  rw [List.map_map]
  rfl

/-! ## Helper lemmas: grouping -/

/-- The grouping fold runs through an error-free block and stops at the next
record carrying an error, keeping the map built so far. -/
lemma groupByDirectoryAux_first_error (fh : FHashed) (post : List FHashed)
    (e : String) (he : fh.err = some e) :
    ∀ (pre : List FHashed) (acc : List (String × List FHashed)),
      (∀ g ∈ pre, g.err = none) →
      groupByDirectoryAux acc (pre ++ fh :: post) =
        ((groupByDirectoryAux acc pre).1, some e) := by
  intro pre
  induction pre with
  | nil =>
    intro acc _
    simp [groupByDirectoryAux, he]
  | cons g gs ih =>
    intro acc hall
    have hg : g.err = none := hall g (List.mem_cons_self g gs)
    simp only [List.cons_append, groupByDirectoryAux, hg]
    exact ih _ (fun x hx => hall x (List.mem_cons_of_mem g hx))

/-- A record of directory "a" whose read failed (`err` set). -/
def geRec : FHashed :=
  { err := some "boom", path := "a/y", directory := "a", hash := [2] }

/-- C3 counterexample.  With one good record followed by an error record, the
grouper returns the error together with the non-empty partially grouped map:
the grouped data is returned to the caller, not discarded. -/
theorem groupByDirectory_returns_partial_counterexample :
    groupByDirectory [faRec, geRec] = ([("a", [faRec])], some "boom") ∧
    ([("a", [faRec])] : List (String × List FHashed)) ≠ [] := by
  constructor <;> decide

/-- C3 (amended).  On the first record carrying an error the grouper stops
folding (later records are ignored) and returns that error together with the
map grouped so far; it is the caller in `run` that discards the partial map
on a non-nil error. -/
theorem groupByDirectory_first_error (pre : List FHashed) (fh : FHashed)
    (post : List FHashed) (e : String) (hall : ∀ g ∈ pre, g.err = none)
    (he : fh.err = some e) :
    groupByDirectory (pre ++ fh :: post) = ((groupByDirectory pre).1, some e) :=
  groupByDirectoryAux_first_error fh post e he pre [] hall

/-- Witness for C3 (amended) on a concrete stream: the fold stops at the
error record and ignores everything after it. -/
theorem groupByDirectory_first_error_witness :
    groupByDirectory [faRec, geRec, fbRec] = ([("a", [faRec])], some "boom") := by
  have h := groupByDirectory_first_error [faRec] geRec [fbRec] "boom"
    (by decide) (by decide)
  exact h.trans (by decide)

/-! ## Helper lemmas: report formatting -/

/-- For a positive threshold the formatter renders exactly the rows whose
match count reaches the threshold, in order. -/
lemma printRepeatedFiles_eq_of_pos (matrix : List (List FRepeated)) (n : Int)
    (hn : 1 ≤ n) :
    printRepeatedFiles matrix n =
      some (((matrix.filter (fun a => decide (n ≤ (a.length : Int)))).map
        (fun a => (renderBlock a).getD [])).flatten) := by
  induction matrix with
  | nil => simp [printRepeatedFiles]
  | cons arr rest ih =>
    by_cases h : (arr.length : Int) < n
    · have hf : decide (n ≤ (arr.length : Int)) = false :=
        decide_eq_false (not_le.mpr h)
      simp only [printRepeatedFiles, if_pos h, List.filter_cons, hf,
        Bool.false_eq_true, if_false, ih]
    · have harr : arr ≠ [] := by
        intro hE
        rw [hE] at h
        simp only [List.length_nil, Int.ofNat_eq_coe, Nat.cast_zero,
          not_lt] at h
        omega
      have hrb : ∃ ls, renderBlock arr = some ls := by
        cases arr with
        | nil => exact absurd rfl harr
        | cons r0 t => exact ⟨_, rfl⟩
      obtain ⟨ls, hls⟩ := hrb
      have ht : decide (n ≤ (arr.length : Int)) = true :=
        decide_eq_true (not_lt.mp h)
      simp only [printRepeatedFiles, if_neg h, hls, ih,
        List.filter_cons, ht, if_true, List.map_cons, List.flatten_cons,
        Option.getD_some]
      rfl

/-- C8.  With threshold at least one, every retained row is non-empty, so the
`repeatedArray[0]` access is in bounds and the formatter always completes;
with threshold `0` a zero-match row drives that access out of bounds. -/
theorem printRepeatedFiles_index_safe :
    (∀ (matrix : List (List FRepeated)) (n : Int), 1 ≤ n →
      (printRepeatedFiles matrix n).isSome = true) ∧
    printRepeatedFiles [[]] 0 = none := by
  constructor
  · intro matrix n hn
    rw [printRepeatedFiles_eq_of_pos matrix n hn]
    rfl
  · rfl

/-- Witness for C8 at a concrete one-row matrix and threshold 1. -/
theorem printRepeatedFiles_index_safe_witness :
    (printRepeatedFiles [[FRepeated.mk faRec fbRec]] 1).isSome = true :=
  printRepeatedFiles_index_safe.1 [[FRepeated.mk faRec fbRec]] 1 (by decide)

/-- C4 counterexample.  With threshold `0`, a pair with zero matches reaches
the threshold (`0 ≤ 0`) yet nothing is rendered: the formatter aborts on an
out-of-bounds access instead of rendering the pair. -/
theorem printRepeatedFiles_threshold_counterexample :
    printRepeatedFiles [[]] 0 = none ∧
    (0 : Int) ≤ (([] : List FRepeated).length : Int) :=
  ⟨rfl, by decide⟩

/-- C4 (amended).  For every threshold `n ≥ 1`, a directory pair appears in
the report exactly when its match count is at least `n`: the output is the
concatenation of the rendered blocks of precisely the rows passing the
length filter, and each such block is non-empty. -/
theorem printRepeatedFiles_threshold (matrix : List (List FRepeated))
    (n : Int) (hn : 1 ≤ n) :
    printRepeatedFiles matrix n =
      some (((matrix.filter (fun a => decide (n ≤ (a.length : Int)))).map
        (fun a => (renderBlock a).getD [])).flatten) ∧
    ∀ arr ∈ matrix, n ≤ (arr.length : Int) → (renderBlock arr).getD [] ≠ [] := by
  refine ⟨printRepeatedFiles_eq_of_pos matrix n hn, ?_⟩
  intro arr _ hlen
  cases arr with
  | nil =>
    simp only [List.length_nil, Nat.cast_zero] at hlen
    omega
  | cons r0 t => simp [renderBlock]

/-- Witness for C4 at a two-row matrix with threshold 1: the empty row is
dropped and the one-match row is rendered. -/
theorem printRepeatedFiles_threshold_witness :
    printRepeatedFiles [[FRepeated.mk faRec fbRec], []] 1 =
      some ["+------+", "|a == b|", "+------+", "|x == y|", "+------+"] := by
  have h := printRepeatedFiles_threshold [[FRepeated.mk faRec fbRec], []] 1
    (by decide)
  exact h.1.trans (by decide)

/-- Closed form of the width fold: each component is the maximum of its seed
and the corresponding matched base-name lengths. -/
lemma biggestFilenameSize_eq (frs : List FRepeated) :
    ∀ (s1 s2 : Nat),
      (biggestFilenameSize s1 s2 frs).1 =
        max s1 ((frs.map (fun fr => (goBase fr.f1.path).length)).foldr max 0) ∧
      (biggestFilenameSize s1 s2 frs).2 =
        max s2 ((frs.map (fun fr => (goBase fr.f2.path).length)).foldr max 0) := by
  induction frs with
  | nil => intro s1 s2; simp [biggestFilenameSize]
  | cons fr rest ih =>
    intro s1 s2
    simp only [biggestFilenameSize, List.map_cons, List.foldr_cons]
    obtain ⟨ih1, ih2⟩ := ih (max s1 (goBase fr.f1.path).length)
      (max s2 (goBase fr.f2.path).length)
    rw [ih1, ih2, max_assoc, max_assoc]
    exact ⟨rfl, rfl⟩

/-- Modelled from the spec for C6: the column widths the claim describes,
namely the maximum base-name length among the matched files only (no seed
from the directory-path lengths). -/
def claimWidths (frs : List FRepeated) : Nat × Nat :=
  biggestFilenameSize 0 0 frs

/-- A record with a directory path longer than its base name, first side. -/
def faWide : FHashed :=
  { err := none, path := "aaaa/x", directory := "aaaa", hash := [1] }

/-- A record with a directory path longer than its base name, second side. -/
def fbWide : FHashed :=
  { err := none, path := "bbbb/y", directory := "bbbb", hash := [1] }

/-- C6 counterexample.  With base names of length 1 but directory paths of
length 4, the rendered divider carries `4+4+4` dashes, not the `1+1+4` the
claim's base-name-only widths would give. -/
theorem renderBlock_width_counterexample :
    ((renderBlock [FRepeated.mk faWide fbWide]).getD []).headD "" =
      dividingLine 4 4 ∧
    claimWidths [FRepeated.mk faWide fbWide] = (1, 1) ∧
    ((renderBlock [FRepeated.mk faWide fbWide]).getD []).headD "" ≠
      "+" ++ String.mk (List.replicate (1 + 1 + 4) '-') ++ "+" :=
  ⟨by decide, by decide, by decide⟩

/-- C6 (amended).  Each side's column width is the maximum of that side's
directory-path length and its matched base-name lengths; every divider is
drawn at `width1+width2+4` dashes between its two corner characters (total
line length `width1+width2+6`). -/
theorem renderBlock_widths (r0 : FRepeated) (rest : List FRepeated)
    (w1 w2 : Nat)
    (hw1 : w1 = max r0.f1.directory.length
      (((r0 :: rest).map (fun fr => (goBase fr.f1.path).length)).foldr max 0))
    (hw2 : w2 = max r0.f2.directory.length
      (((r0 :: rest).map (fun fr => (goBase fr.f2.path).length)).foldr max 0)) :
    renderBlock (r0 :: rest) =
      some ([dividingLine w1 w2,
             twoFilesLine w1 w2 r0.f1.directory r0.f2.directory,
             dividingLine w1 w2] ++
            (r0 :: rest).map (fun r =>
              twoFilesLine w1 w2 (goBase r.f1.path) (goBase r.f2.path)) ++
            [dividingLine w1 w2]) ∧
    (dividingLine w1 w2).length = w1 + w2 + 6 := by
  obtain ⟨h1, h2⟩ := biggestFilenameSize_eq (r0 :: rest)
    r0.f1.directory.length r0.f2.directory.length
  constructor
  · rw [renderBlock]
    rw [h1, h2, ← hw1, ← hw2]
  · have hplus : "+".length = 1 := rfl
    simp [dividingLine, String.length_append, hplus]
    omega

/-- Witness for C6 (amended) on a concrete one-match block. -/
theorem renderBlock_widths_witness :
    renderBlock [FRepeated.mk faWide fbWide] =
      some ["+------------+", "|aaaa == bbbb|", "+------------+",
            "|   x == y   |", "+------------+"] := by
  have h := renderBlock_widths (FRepeated.mk faWide fbWide) [] 4 4
    (by decide) (by decide)
  exact h.1.trans (by decide)

/-! ## C7: the size window of the traversal filter -/

/-- C7.  A regular, non-excluded file is emitted into the pipeline exactly
when its size lies in the inclusive window; outside the window the callback
writes the out-of-bounds warning to standard error and skips the file
without returning an error. -/
theorem walkStep_size_window (path : String) (s mn mx : Int) :
    (walkStep none true false path s mn mx = WalkAction.emit ↔
      mn ≤ s ∧ s ≤ mx) ∧
    (s < mn ∨ mx < s →
      walkStep none true false path s mn mx =
        WalkAction.warnSkip (outOfBoundsMsg path s mn mx)) ∧
    (∀ e, walkStep none true false path s mn mx ≠ WalkAction.fail e) := by
  by_cases h : s < mn ∨ s > mx
  · refine ⟨?_, fun _ => ?_, fun e => ?_⟩ <;> simp [walkStep, h]
    omega
  · refine ⟨?_, fun hc => absurd hc h, fun e => ?_⟩ <;> simp [walkStep, h]
    omega

/-- Witness for C7: a 5-byte file against the window [0, 3] is skipped with
the warning, and a 2-byte file is emitted. -/
theorem walkStep_size_window_witness :
    walkStep none true false "f" 5 0 3 =
      WalkAction.warnSkip (outOfBoundsMsg "f" 5 0 3) ∧
    walkStep none true false "f" 2 0 3 = WalkAction.emit :=
  ⟨(walkStep_size_window "f" 5 0 3).2.1 (Or.inr (by decide)),
   (walkStep_size_window "f" 2 0 3).1.mpr ⟨by decide, by decide⟩⟩

/-! ## C9: error records from the hash workers -/

set_option maxRecDepth 100000 in
/-- C9 counterexample.  A mid-read failure returns the partially read bytes
alongside the error; the emitted record then carries the digest of those
bytes — here the digest of the single byte `0x01` — which is not the digest
of the empty byte string. -/
theorem md5All_partial_read_counterexample :
    md5All (fun _ => ".") [("p", ([1], some "io error"))] =
      [FHashed.mk (some "io error") "p" "." (md5Sum [1])] ∧
    md5Sum [1] ≠ md5Sum [] :=
  ⟨rfl, by decide⟩

/-- C9 (amended).  For every path whose read fails, a record is still
emitted: its `err` field is set and its fingerprint is the MD5 digest of the
data returned alongside the error; when the failed read returned no data
(the open-failure case) that is the digest of the empty byte string, the
same fingerprint a successfully read empty file gets. -/
theorem md5All_error_record (fpDir : String → String)
    (jobs : List (String × (List UInt8 × Option String)))
    (p e : String) (data : List UInt8)
    (hmem : (p, (data, some e)) ∈ jobs) :
    FHashed.mk (some e) p (fpDir p) (md5Sum data) ∈ md5All fpDir jobs ∧
    (data = [] → md5Sum data = (md5One fpDir p ([], none)).hash) := by
  constructor
  · rw [md5All]
    exact List.mem_map.mpr ⟨(p, (data, some e)), hmem, rfl⟩
  · intro h
    rw [h]
    rfl

/-- Witness for C9 on a one-job stream whose read fails with no data. -/
theorem md5All_error_record_witness :
    FHashed.mk (some "boom") "p" "." (md5Sum []) ∈
      md5All (fun _ => ".") [("p", ([], some "boom"))] :=
  (md5All_error_record (fun _ => ".")
    [("p", ([], some "boom"))] "p" "boom" [] (List.mem_cons_self _ _)).1

end RepDetect
